import Mathlib

/-!
A shallow embedding of `automata.py`: the Abelian sandpile relaxation and the
three Game-of-Life engines (square grid, triangular grid, generic graph),
together with theorems checking the specification's statements against it.

Grids are total functions `Nat → Nat → _` (vectors `Nat → _`) paired with
explicit dimensions; every operation normalises values outside its domain to
the sentinel (0 / false), mirroring the fixed array extents of the numpy code.
-/

namespace Automata

/-! ## Abelian sandpile (`sandpile`, automata.py lines 8–51)

The input grid is padded with a one-cell zero border (lines 25–27).  The
`while (in_state > 3).any()` loop (line 29) is modelled with explicit fuel:
`relaxLoop` returns `none` when the loop has not finished within `fuel`
iterations and `some` of the final padded grid otherwise.  One loop body
(lines 32–44) is `iterate1`: the five bulk fancy-indexing statements
(`in_state[x_here-1, y_here] += 1`, …, `in_state[x_here, y_here] -= 4`) are
modelled as five sequential folds over the list of unstable positions in the
row-major order `np.where` produces, followed by the border reset of lines
43–44.  A numpy index of `-1` (which can only arise from an unstable cell in
row/column 0) wraps around to the last row/column, hence the wrap in `upT` and
`leftT`; in a run the border is always stable so the wrap never fires. -/

/-- Integer grid: value at coordinates `(x, y)`. -/
abbrev IGrid := Nat → Nat → Int

/-- Positions `(x, 0), …, (x, cc-1)` of row `x`, in increasing column order. -/
def rowPos (x : Nat) : Nat → List (Nat × Nat)
  | 0 => []
  | cc + 1 => rowPos x cc ++ [(x, cc)]

/-- All positions of an `rr × cc` array in row-major order, as `np.where` scans. -/
def allPos : Nat → Nat → List (Nat × Nat)
  | 0, _ => []
  | rr + 1, cc => allPos rr cc ++ rowPos rr cc

/-- `np.where(in_state > 3)` over the padded `(R+2) × (C+2)` array. -/
def unstableList (R C : Nat) (g : IGrid) : List (Nat × Nat) :=
  (allPos (R + 2) (C + 2)).filter fun u => decide (3 < g u.1 u.2)

/-- Add 1 at one position (one element of a fancy-indexed `+= 1`). -/
def bumpAt (s : IGrid) (p : Nat × Nat) : IGrid :=
  fun a b => if a = p.1 ∧ b = p.2 then s a b + 1 else s a b

/-- Subtract 4 at one position (one element of the fancy-indexed `-= 4`). -/
def dropFour (s : IGrid) (p : Nat × Nat) : IGrid :=
  fun a b => if a = p.1 ∧ b = p.2 then s a b - 4 else s a b

/-- One whole fancy-indexed `+= 1` statement: bump the `t`-image of every
unstable position.  Within one statement the targets are pairwise distinct, so
the sequential fold agrees with numpy's buffered update. -/
def bumpPass (t : Nat × Nat → Nat × Nat) (l : List (Nat × Nat)) (s : IGrid) : IGrid :=
  l.foldl (fun s u => bumpAt s (t u)) s

/-- Target of `in_state[x_here-1, y_here]` (numpy `-1` wraps to the last row). -/
def upT (rr : Nat) (u : Nat × Nat) : Nat × Nat :=
  (if u.1 = 0 then rr - 1 else u.1 - 1, u.2)

/-- Target of `in_state[x_here+1, y_here]`. -/
def downT (u : Nat × Nat) : Nat × Nat := (u.1 + 1, u.2)

/-- Target of `in_state[x_here, y_here-1]` (numpy `-1` wraps to the last column). -/
def leftT (cc : Nat) (u : Nat × Nat) : Nat × Nat :=
  (u.1, if u.2 = 0 then cc - 1 else u.2 - 1)

/-- Target of `in_state[x_here, y_here+1]`. -/
def rightT (u : Nat × Nat) : Nat × Nat := (u.1, u.2 + 1)

/-- Lines 32–42: the simultaneous topple of all cells that were `> 3` in the
snapshot `g`, expressed exactly as the five sequential bulk updates of the
source. -/
def toppleScatter (R C : Nat) (g : IGrid) : IGrid :=
  let l := unstableList R C g
  let s1 := bumpPass (upT (R + 2)) l g
  let s2 := bumpPass downT l s1
  let s3 := bumpPass (leftT (C + 2)) l s2
  let s4 := bumpPass rightT l s3
  l.foldl dropFour s4

/-- The border of the padded `(R+2) × (C+2)` array (lines 43–44 reset it). -/
def isBorder (R C : Nat) (x y : Nat) : Prop :=
  x = 0 ∨ x = R + 1 ∨ y = 0 ∨ y = C + 1

instance (R C x y : Nat) : Decidable (isBorder R C x y) :=
  inferInstanceAs (Decidable (_ ∨ _ ∨ _ ∨ _))

/-- One iteration of the `while` loop: topple against the snapshot, then zero
the border; values outside the padded array are normalised to 0. -/
def iterate1 (R C : Nat) (g : IGrid) : IGrid :=
  fun x y =>
    if x < R + 2 ∧ y < C + 2 ∧ ¬ isBorder R C x y then toppleScatter R C g x y else 0

/-- `¬ (in_state > 3).any()`: no cell of the padded array exceeds 3. -/
def stableP (R C : Nat) (g : IGrid) : Prop :=
  ∀ x, x < R + 2 → ∀ y, y < C + 2 → g x y ≤ 3

instance (R C : Nat) (g : IGrid) : Decidable (stableP R C g) :=
  inferInstanceAs (Decidable (∀ x, x < R + 2 → ∀ y, y < C + 2 → g x y ≤ 3))

/-- The `while` loop of line 29 with explicit fuel. -/
def relaxLoop (R C : Nat) : Nat → IGrid → Option IGrid
  | 0, g => if stableP R C g then some g else none
  | fuel + 1, g => if stableP R C g then some g else relaxLoop R C fuel (iterate1 R C g)

/-- Lines 25–27: embed the `R × C` input at offset `(1, 1)` of a zero-bordered
`(R+2) × (C+2)` array. -/
def padG (R C : Nat) (g : IGrid) : IGrid :=
  fun x y => if 1 ≤ x ∧ x ≤ R ∧ 1 ≤ y ∧ y ≤ C then g (x - 1) (y - 1) else 0

/-- Line 51: `in_state[1:-1, 1:-1]`. -/
def stripG (g : IGrid) : IGrid := fun x y => g (x + 1) (y + 1)

/-- The whole `sandpile` function on an `R × C` grid, with fuel for the loop. -/
def sandpile (R C fuel : Nat) (g : IGrid) : Option IGrid :=
  (relaxLoop R C fuel (padG R C g)).map stripG

/-- The border of the padded array holds 0 (the loop invariant of the run). -/
def borderZero (R C : Nat) (g : IGrid) : Prop :=
  ∀ x, x < R + 2 → ∀ y, y < C + 2 → isBorder R C x y → g x y = 0

instance (R C : Nat) (g : IGrid) : Decidable (borderZero R C g) :=
  inferInstanceAs (Decidable (∀ x, x < R + 2 → ∀ y, y < C + 2 → _))

/-- Number of orthogonal neighbours of `(x, y)` that are unstable in `g`
(the spec side of claim C1). -/
def unstableNbrs (g : IGrid) (x y : Nat) : Int :=
  (if 3 < g (x - 1) y then 1 else 0) + (if 3 < g (x + 1) y then 1 else 0)
    + (if 3 < g x (y - 1) then 1 else 0) + (if 3 < g x (y + 1) then 1 else 0)

/-! ### Counting lemmas for the scatter/gather correspondence -/

theorem countP_congr_mem {α : Type} {l : List α} {p q : α → Bool}
    (h : ∀ u ∈ l, p u = q u) : l.countP p = l.countP q := by
  induction l with
  | nil => rfl
  | cons a l ih =>
      rw [List.countP_cons, List.countP_cons, h a (List.mem_cons_self a l),
        ih fun u hu => h u (List.mem_cons_of_mem a hu)]

theorem countP_filter_and {α : Type} (l : List α) (p f : α → Bool) :
    (l.filter f).countP p = l.countP fun a => p a && f a := by
  induction l with
  | nil => rfl
  | cons a l ih =>
      rw [List.filter_cons]
      by_cases hf : f a = true
      · simp only [hf, if_true, List.countP_cons, ih, Bool.and_true]
      · have hf' : f a = false := by revert hf; cases f a <;> simp
        simp only [hf', if_false, List.countP_cons, ih, Bool.and_false, if_false,
          Bool.false_eq_true]
        omega

theorem countP_single_rowPos (x cc : Nat) (w : Nat × Nat) (h : Nat × Nat → Bool) :
    (rowPos x cc).countP (fun u => decide (u = w) && h u) =
      if w.1 = x ∧ w.2 < cc ∧ h w = true then 1 else 0 := by
  induction cc with
  | zero => simp [rowPos]
  | succ cc ih =>
      rw [rowPos, List.countP_append, ih]
      by_cases hw : (x, cc) = w
      · subst hw
        simp only [List.countP_cons, List.countP_nil, decide_eq_true_eq]
        by_cases hh : h (x, cc) = true
        · simp [hh]
        · simp [hh]
      · have : (decide ((x, cc) = w) && h (x, cc)) = false := by
          simp [hw]
        simp only [List.countP_cons, List.countP_nil, this, Bool.false_eq_true, if_false]
        have hne : ¬(w.1 = x ∧ w.2 = cc) := by
          intro ⟨h1, h2⟩; exact hw (by cases w; simp_all)
        by_cases h1 : w.1 = x
        · by_cases h2 : w.2 < cc
          · simp only [h1]
            have : w.2 < cc + 1 := by omega
            simp [h2, this]
          · have : ¬ w.2 < cc + 1 := by
              rcases Nat.lt_or_ge w.2 cc with h' | h'
              · exact absurd h' h2
              · have : w.2 ≠ cc := fun hc => hne ⟨h1, hc⟩
                omega
            simp [h2, this]
        · simp [h1]

theorem countP_single_allPos (rr cc : Nat) (w : Nat × Nat) (h : Nat × Nat → Bool) :
    (allPos rr cc).countP (fun u => decide (u = w) && h u) =
      if w.1 < rr ∧ w.2 < cc ∧ h w = true then 1 else 0 := by
  induction rr with
  | zero => simp [allPos]
  | succ rr ih =>
      rw [allPos, List.countP_append, ih, countP_single_rowPos]
      by_cases h1 : w.1 < rr
      · have h2 : w.1 ≠ rr := by omega
        have h3 : w.1 < rr + 1 := by omega
        simp [h1, h2, h3]
      · by_cases h2 : w.1 = rr
        · have h3 : w.1 < rr + 1 := by omega
          simp [h1, h2, h3]
        · have h3 : ¬ w.1 < rr + 1 := by omega
          simp [h1, h2, h3]

theorem countP_unstable_single (R C : Nat) (g : IGrid) (w : Nat × Nat) :
    (unstableList R C g).countP (fun u => decide (u = w)) =
      if w.1 < R + 2 ∧ w.2 < C + 2 ∧ 3 < g w.1 w.2 then 1 else 0 := by
  rw [unstableList, countP_filter_and, countP_single_allPos]
  by_cases h : 3 < g w.1 w.2 <;> simp [h]

theorem mem_rowPos (x cc : Nat) (u : Nat × Nat) :
    u ∈ rowPos x cc ↔ u.1 = x ∧ u.2 < cc := by
  induction cc with
  | zero => simp [rowPos]
  | succ cc ih =>
      rw [rowPos]
      simp only [List.mem_append, ih, List.mem_singleton]
      constructor
      · rintro (⟨h1, h2⟩ | h)
        · exact ⟨h1, by omega⟩
        · subst h; exact ⟨rfl, by omega⟩
      · rintro ⟨h1, h2⟩
        by_cases h3 : u.2 < cc
        · exact Or.inl ⟨h1, h3⟩
        · right
          have : u.2 = cc := by omega
          cases u; simp_all

theorem mem_allPos (rr cc : Nat) (u : Nat × Nat) :
    u ∈ allPos rr cc ↔ u.1 < rr ∧ u.2 < cc := by
  induction rr with
  | zero => simp [allPos]
  | succ rr ih =>
      rw [allPos]
      simp only [List.mem_append, ih, mem_rowPos]
      omega

theorem mem_unstableList (R C : Nat) (g : IGrid) (u : Nat × Nat) :
    u ∈ unstableList R C g ↔ u.1 < R + 2 ∧ u.2 < C + 2 ∧ 3 < g u.1 u.2 := by
  rw [unstableList, List.mem_filter, mem_allPos]
  simp [and_assoc]

/-- Under the border invariant every unstable cell is interior. -/
theorem unstable_interior {R C : Nat} {g : IGrid} (hb : borderZero R C g)
    {u : Nat × Nat} (hu : u ∈ unstableList R C g) :
    1 ≤ u.1 ∧ u.1 ≤ R ∧ 1 ≤ u.2 ∧ u.2 ≤ C := by
  rw [mem_unstableList] at hu
  obtain ⟨h1, h2, h3⟩ := hu
  by_contra h
  have hbord : isBorder R C u.1 u.2 := by
    unfold isBorder; omega
  have := hb u.1 h1 u.2 h2 hbord
  omega

theorem bumpPass_apply (t : Nat × Nat → Nat × Nat) (l : List (Nat × Nat))
    (s : IGrid) (a b : Nat) :
    bumpPass t l s a b = s a b + (l.countP fun u => decide (t u = (a, b)) : Nat) := by
  induction l generalizing s with
  | nil => simp [bumpPass]
  | cons u l ih =>
      have hstep : bumpAt s (t u) a b = s a b + if t u = (a, b) then 1 else 0 := by
        rw [bumpAt]
        by_cases h : t u = (a, b)
        · have h1 : a = (t u).1 ∧ b = (t u).2 := by rw [h]; exact ⟨rfl, rfl⟩
          rw [if_pos h1, if_pos h]
        · have h1 : ¬(a = (t u).1 ∧ b = (t u).2) := by
            rintro ⟨ha, hb⟩
            apply h
            rw [ha, hb]
          rw [if_neg h1, if_neg h]
          ring
      rw [bumpPass, List.foldl_cons, ← bumpPass, ih, hstep]
      simp only [List.countP_cons, decide_eq_true_eq]
      by_cases h : t u = (a, b)
      · rw [if_pos h, if_pos h]
        push_cast
        ring
      · rw [if_neg h, if_neg h]
        push_cast
        ring

theorem dropPass_apply (l : List (Nat × Nat)) (s : IGrid) (a b : Nat) :
    l.foldl dropFour s a b =
      s a b - 4 * (l.countP fun u => decide (u = (a, b)) : Nat) := by
  induction l generalizing s with
  | nil => simp
  | cons u l ih =>
      have hstep : dropFour s u a b = s a b - if u = (a, b) then 4 else 0 := by
        rw [dropFour]
        by_cases h : u = (a, b)
        · have h1 : a = u.1 ∧ b = u.2 := by rw [h]; exact ⟨rfl, rfl⟩
          rw [if_pos h1, if_pos h]
        · have h1 : ¬(a = u.1 ∧ b = u.2) := by
            rintro ⟨ha, hb⟩
            apply h
            rw [ha, hb]
          rw [if_neg h1, if_neg h]
          ring
      rw [List.foldl_cons, ih, hstep]
      simp only [List.countP_cons, decide_eq_true_eq]
      by_cases h : u = (a, b)
      · rw [if_pos h, if_pos h]
        push_cast
        ring
      · rw [if_neg h, if_neg h]
        push_cast
        ring

/-- The value of the whole topple at any cell, as the five counts. -/
theorem toppleScatter_counts (R C : Nat) (g : IGrid) (a b : Nat) :
    toppleScatter R C g a b =
      g a b
        + ((unstableList R C g).countP fun u => decide (upT (R + 2) u = (a, b)) : Nat)
        + ((unstableList R C g).countP fun u => decide (downT u = (a, b)) : Nat)
        + ((unstableList R C g).countP fun u => decide (leftT (C + 2) u = (a, b)) : Nat)
        + ((unstableList R C g).countP fun u => decide (rightT u = (a, b)) : Nat)
        - 4 * ((unstableList R C g).countP fun u => decide (u = (a, b)) : Nat) := by
  rw [toppleScatter]
  rw [dropPass_apply, bumpPass_apply, bumpPass_apply, bumpPass_apply, bumpPass_apply]

/-- Gather form of the topple at an interior cell, under the border invariant:
the cell gains exactly one unit per unstable orthogonal neighbour and loses 4
iff it is itself unstable, all counted in the snapshot `g`. -/
theorem toppleScatter_gather (R C : Nat) (g : IGrid) (hb : borderZero R C g)
    (x y : Nat) (hx1 : 1 ≤ x) (hx2 : x ≤ R) (hy1 : 1 ≤ y) (hy2 : y ≤ C) :
    toppleScatter R C g x y =
      g x y + unstableNbrs g x y - (if 3 < g x y then 4 else 0) := by
  rw [toppleScatter_counts]
  have hup : ((unstableList R C g).countP fun u => decide (upT (R + 2) u = (x, y)))
      = (unstableList R C g).countP fun u => decide (u = (x + 1, y)) := by
    apply countP_congr_mem
    intro u hu
    have hi := unstable_interior hb hu
    rw [decide_eq_decide, upT, if_neg (show ¬ u.1 = 0 by omega), Prod.ext_iff,
      Prod.ext_iff]
    dsimp only
    omega
  have hdown : ((unstableList R C g).countP fun u => decide (downT u = (x, y)))
      = (unstableList R C g).countP fun u => decide (u = (x - 1, y)) := by
    apply countP_congr_mem
    intro u hu
    have hi := unstable_interior hb hu
    rw [decide_eq_decide, downT, Prod.ext_iff, Prod.ext_iff]
    dsimp only
    omega
  have hleft : ((unstableList R C g).countP fun u => decide (leftT (C + 2) u = (x, y)))
      = (unstableList R C g).countP fun u => decide (u = (x, y + 1)) := by
    apply countP_congr_mem
    intro u hu
    have hi := unstable_interior hb hu
    rw [decide_eq_decide, leftT, if_neg (show ¬ u.2 = 0 by omega), Prod.ext_iff,
      Prod.ext_iff]
    dsimp only
    omega
  have hright : ((unstableList R C g).countP fun u => decide (rightT u = (x, y)))
      = (unstableList R C g).countP fun u => decide (u = (x, y - 1)) := by
    apply countP_congr_mem
    intro u hu
    have hi := unstable_interior hb hu
    rw [decide_eq_decide, rightT, Prod.ext_iff, Prod.ext_iff]
    dsimp only
    omega
  rw [hup, hdown, hleft, hright, countP_unstable_single, countP_unstable_single,
    countP_unstable_single, countP_unstable_single, countP_unstable_single]
  dsimp only
  have e1 : (if x + 1 < R + 2 ∧ y < C + 2 ∧ 3 < g (x + 1) y then (1 : Nat) else 0)
      = if 3 < g (x + 1) y then 1 else 0 := by
    by_cases h : 3 < g (x + 1) y
    · rw [if_pos ⟨by omega, by omega, h⟩, if_pos h]
    · rw [if_neg (fun hc => h hc.2.2), if_neg h]
  have e2 : (if x - 1 < R + 2 ∧ y < C + 2 ∧ 3 < g (x - 1) y then (1 : Nat) else 0)
      = if 3 < g (x - 1) y then 1 else 0 := by
    by_cases h : 3 < g (x - 1) y
    · rw [if_pos ⟨by omega, by omega, h⟩, if_pos h]
    · rw [if_neg (fun hc => h hc.2.2), if_neg h]
  have e3 : (if x < R + 2 ∧ y + 1 < C + 2 ∧ 3 < g x (y + 1) then (1 : Nat) else 0)
      = if 3 < g x (y + 1) then 1 else 0 := by
    by_cases h : 3 < g x (y + 1)
    · rw [if_pos ⟨by omega, by omega, h⟩, if_pos h]
    · rw [if_neg (fun hc => h hc.2.2), if_neg h]
  have e4 : (if x < R + 2 ∧ y - 1 < C + 2 ∧ 3 < g x (y - 1) then (1 : Nat) else 0)
      = if 3 < g x (y - 1) then 1 else 0 := by
    by_cases h : 3 < g x (y - 1)
    · rw [if_pos ⟨by omega, by omega, h⟩, if_pos h]
    · rw [if_neg (fun hc => h hc.2.2), if_neg h]
  have e5 : (if x < R + 2 ∧ y < C + 2 ∧ 3 < g x y then (1 : Nat) else 0)
      = if 3 < g x y then 1 else 0 := by
    by_cases h : 3 < g x y
    · rw [if_pos ⟨by omega, by omega, h⟩, if_pos h]
    · rw [if_neg (fun hc => h hc.2.2), if_neg h]
  rw [e1, e2, e3, e4, e5, unstableNbrs]
  push_cast
  by_cases h : 3 < g x y
  · rw [if_pos h, if_pos h]
    ring
  · rw [if_neg h, if_neg h]
    ring

/-- **C1**: in every iteration of the relaxation loop, toppling is
simultaneous against the snapshot `g`: every cell `> 3` loses exactly 4, and
every cell gains exactly one unit per unstable orthogonal neighbour (so a cell
adjacent to `k` unstable cells gains exactly `k`), the border-zero loop
invariant holding at the start of each iteration. -/
theorem sandpile_topples_simultaneously (R C : Nat) (g : IGrid)
    (hb : borderZero R C g) (x y : Nat)
    (hx1 : 1 ≤ x) (hx2 : x ≤ R) (hy1 : 1 ≤ y) (hy2 : y ≤ C) :
    toppleScatter R C g x y =
      g x y + unstableNbrs g x y - (if 3 < g x y then 4 else 0) :=
  toppleScatter_gather R C g hb x y hx1 hx2 hy1 hy2

/-- A concrete padded 3×3 state for a 1×1 grid whose single cell holds 4. -/
def exGrid1 : IGrid := fun x y => if x = 1 ∧ y = 1 then 4 else 0

/-! ### The relaxation loop: invariants and the stability of its result -/

/-- Everything outside the interior of the padded array is 0. -/
def paddedZero (R C : Nat) (g : IGrid) : Prop :=
  ∀ x y, (R + 2 ≤ x ∨ C + 2 ≤ y ∨ isBorder R C x y) → g x y = 0

theorem paddedZero_padG (R C : Nat) (g : IGrid) : paddedZero R C (padG R C g) := by
  intro x y h
  rw [padG, if_neg]
  rintro ⟨h1, h2, h3, h4⟩
  rcases h with h | h | h
  · omega
  · omega
  · rcases h with h | h | h | h <;> omega

theorem paddedZero_iterate1 (R C : Nat) (g : IGrid) :
    paddedZero R C (iterate1 R C g) := by
  intro x y h
  rw [iterate1, if_neg]
  rintro ⟨h1, h2, h3⟩
  rcases h with h | h | h
  · omega
  · omega
  · exact h3 h

theorem paddedZero_borderZero {R C : Nat} {g : IGrid} (h : paddedZero R C g) :
    borderZero R C g :=
  fun x _ y _ hb => h x y (Or.inr (Or.inr hb))

theorem paddedZero_eval {R C : Nat} {g : IGrid} (hz : paddedZero R C g) {x y : Nat}
    (h : ¬(1 ≤ x ∧ x ≤ R ∧ 1 ≤ y ∧ y ≤ C)) : g x y = 0 := by
  apply hz
  by_cases hx : x < R + 2
  · by_cases hy : y < C + 2
    · right; right
      unfold isBorder
      omega
    · right; left; omega
  · left; omega

theorem relaxLoop_stable (R C : Nat) :
    ∀ fuel (g res : IGrid), relaxLoop R C fuel g = some res → stableP R C res := by
  intro fuel
  induction fuel with
  | zero =>
      intro g res h
      rw [relaxLoop] at h
      by_cases hs : stableP R C g
      · rw [if_pos hs] at h
        injection h with h'
        exact h' ▸ hs
      · rw [if_neg hs] at h
        exact Option.noConfusion h
  | succ fuel ih =>
      intro g res h
      rw [relaxLoop] at h
      by_cases hs : stableP R C g
      · rw [if_pos hs] at h
        injection h with h'
        exact h' ▸ hs
      · rw [if_neg hs] at h
        exact ih _ _ h

theorem relaxLoop_paddedZero (R C : Nat) :
    ∀ fuel (g res : IGrid), paddedZero R C g → relaxLoop R C fuel g = some res →
      paddedZero R C res := by
  intro fuel
  induction fuel with
  | zero =>
      intro g res hz h
      rw [relaxLoop] at h
      by_cases hs : stableP R C g
      · rw [if_pos hs] at h
        injection h with h'
        exact h' ▸ hz
      · rw [if_neg hs] at h
        exact Option.noConfusion h
  | succ fuel ih =>
      intro g res hz h
      rw [relaxLoop] at h
      by_cases hs : stableP R C g
      · rw [if_pos hs] at h
        injection h with h'
        exact h' ▸ hz
      · rw [if_neg hs] at h
        exact ih _ _ (paddedZero_iterate1 R C g) h

theorem relaxLoop_of_stable (R C : Nat) (fuel : Nat) (g : IGrid)
    (hs : stableP R C g) : relaxLoop R C fuel g = some g := by
  cases fuel with
  | zero => rw [relaxLoop, if_pos hs]
  | succ fuel => rw [relaxLoop, if_pos hs]

/-- Dissect a successful `sandpile` call. -/
theorem sandpile_inv {R C fuel : Nat} {g res : IGrid}
    (h : sandpile R C fuel g = some res) :
    ∃ h0, relaxLoop R C fuel (padG R C g) = some h0 ∧ res = stripG h0 ∧
      stableP R C h0 ∧ paddedZero R C h0 := by
  rw [sandpile] at h
  rcases Option.map_eq_some'.mp h with ⟨h0, hloop, hstrip⟩
  exact ⟨h0, hloop, hstrip.symm, relaxLoop_stable R C fuel _ _ hloop,
    relaxLoop_paddedZero R C fuel _ _ (paddedZero_padG R C g) hloop⟩

/-- **C5**: whenever the relaxation returns, no cell of the returned grid
exceeds 3. -/
theorem sandpile_result_stable (R C fuel : Nat) (g res : IGrid)
    (h : sandpile R C fuel g = some res) :
    ∀ x, x < R → ∀ y, y < C → res x y ≤ 3 := by
  rcases sandpile_inv h with ⟨h0, _, hstrip, hstab, _⟩
  intro x hx y hy
  rw [hstrip, stripG]
  exact hstab (x + 1) (by omega) (y + 1) (by omega)

/-- A stable, normalised 1×1 grid (single cell 1). -/
def stableGrid1 : IGrid := fun x y => if x = 0 ∧ y = 0 then 1 else 0

theorem stableGrid1_run : sandpile 1 1 0 stableGrid1 = some stableGrid1 := by
  have hs : stableP 1 1 (padG 1 1 stableGrid1) := by decide
  have hstrip : stripG (padG 1 1 stableGrid1) = stableGrid1 := by
    funext x y
    by_cases h : x = 0 ∧ y = 0
    · obtain ⟨hx, hy⟩ := h
      subst hx; subst hy
      decide
    · simp only [stripG, padG, stableGrid1]
      rw [if_neg (by omega), if_neg h]
  rw [sandpile, relaxLoop, if_pos hs, Option.map_some', hstrip]

theorem sandpile_result_stable_w :
    sandpile 1 1 0 stableGrid1 = some stableGrid1 ∧ stableGrid1 0 0 ≤ 3 :=
  ⟨stableGrid1_run,
    sandpile_result_stable 1 1 0 stableGrid1 stableGrid1 stableGrid1_run 0
      (by decide) 0 (by decide)⟩

/-- **C8**: the relaxation is idempotent — feeding a returned grid back in
returns it unchanged (with any fuel); in particular an already-stable
(normalised) grid is returned unchanged. -/
theorem sandpile_idempotent (R C fuel fuel' : Nat) (g res : IGrid) :
    (sandpile R C fuel g = some res → sandpile R C fuel' res = some res) ∧
      ((∀ x, x < R → ∀ y, y < C → g x y ≤ 3) →
        (∀ x y, R ≤ x ∨ C ≤ y → g x y = 0) →
        sandpile R C fuel' g = some g) := by
  constructor
  · intro h
    rcases sandpile_inv h with ⟨h0, _, hstrip, hstab, hzero⟩
    have hpad : padG R C res = h0 := by
      funext x y
      rw [padG]
      by_cases hin : 1 ≤ x ∧ x ≤ R ∧ 1 ≤ y ∧ y ≤ C
      · rw [if_pos hin, hstrip, stripG]
        have hx : x - 1 + 1 = x := by omega
        have hy : y - 1 + 1 = y := by omega
        rw [hx, hy]
      · rw [if_neg hin, paddedZero_eval hzero hin]
    rw [sandpile, hpad, relaxLoop_of_stable R C fuel' h0 hstab, Option.map_some',
      ← hstrip]
  · intro hstab hnorm
    have hs : stableP R C (padG R C g) := by
      intro x hx y hy
      rw [padG]
      by_cases hin : 1 ≤ x ∧ x ≤ R ∧ 1 ≤ y ∧ y ≤ C
      · rw [if_pos hin]
        exact hstab (x - 1) (by omega) (y - 1) (by omega)
      · rw [if_neg hin]
        omega
    have hstrip : stripG (padG R C g) = g := by
      funext x y
      rw [stripG, padG]
      by_cases hin : x < R ∧ y < C
      · rw [if_pos (by omega)]
        simp only [Nat.add_sub_cancel]
      · rw [if_neg (by omega), (hnorm x y (by omega)).symm]
    rw [sandpile, relaxLoop_of_stable R C fuel' _ hs, Option.map_some', hstrip]

/-! ### Mass bookkeeping for claim C6 -/

/-- Total mass of the padded `(R+2) × (C+2)` array. -/
def pSum (R C : Nat) (g : IGrid) : Int :=
  ∑ x ∈ Finset.range (R + 2), ∑ y ∈ Finset.range (C + 2), g x y

/-- Total mass of the `R × C` (unpadded) grid. -/
def gSum (R C : Nat) (g : IGrid) : Int :=
  ∑ x ∈ Finset.range R, ∑ y ∈ Finset.range C, g x y

/-- Mass sitting on the border of the padded array. -/
def bSum (R C : Nat) (g : IGrid) : Int :=
  ∑ x ∈ Finset.range (R + 2), ∑ y ∈ Finset.range (C + 2),
    (if isBorder R C x y then g x y else 0)

theorem sum2_indicator (n m a b : Nat) :
    (∑ x ∈ Finset.range n, ∑ y ∈ Finset.range m,
        (if x = a ∧ y = b then (1 : Int) else 0)) =
      if a < n ∧ b < m then 1 else 0 := by
  have inner : ∀ x : Nat,
      (∑ y ∈ Finset.range m, if x = a ∧ y = b then (1 : Int) else 0) =
        if x = a ∧ b < m then 1 else 0 := by
    intro x
    by_cases hx : x = a
    · subst hx
      simp only [eq_self_iff_true, true_and]
      rw [Finset.sum_ite_eq' (Finset.range m) b fun _ => (1 : Int)]
      simp [Finset.mem_range]
    · simp [hx]
  rw [Finset.sum_congr rfl fun x _ => inner x]
  by_cases hb : b < m
  · simp only [hb, and_true]
    rw [Finset.sum_ite_eq' (Finset.range n) a fun _ => (1 : Int)]
    simp [Finset.mem_range]
  · simp [hb]

theorem pSum_bumpAt (R C : Nat) (s : IGrid) (p : Nat × Nat) :
    pSum R C (bumpAt s p) =
      pSum R C s + (if p.1 < R + 2 ∧ p.2 < C + 2 then 1 else 0) := by
  rw [pSum, pSum]
  have hpt : ∀ x y, bumpAt s p x y =
      s x y + if x = p.1 ∧ y = p.2 then 1 else 0 := by
    intro x y
    rw [bumpAt]
    by_cases h : x = p.1 ∧ y = p.2
    · rw [if_pos h, if_pos h]
    · rw [if_neg h, if_neg h, add_zero]
  calc ∑ x ∈ Finset.range (R + 2), ∑ y ∈ Finset.range (C + 2), bumpAt s p x y
      = ∑ x ∈ Finset.range (R + 2), ∑ y ∈ Finset.range (C + 2),
          (s x y + if x = p.1 ∧ y = p.2 then 1 else 0) :=
        Finset.sum_congr rfl fun x _ => Finset.sum_congr rfl fun y _ => hpt x y
    _ = (∑ x ∈ Finset.range (R + 2), ∑ y ∈ Finset.range (C + 2), s x y)
        + ∑ x ∈ Finset.range (R + 2), ∑ y ∈ Finset.range (C + 2),
            (if x = p.1 ∧ y = p.2 then (1 : Int) else 0) := by
        rw [← Finset.sum_add_distrib]
        exact Finset.sum_congr rfl fun x _ => Finset.sum_add_distrib
    _ = _ := by
        rw [sum2_indicator]

theorem pSum_dropFour (R C : Nat) (s : IGrid) (p : Nat × Nat) :
    pSum R C (dropFour s p) =
      pSum R C s - 4 * (if p.1 < R + 2 ∧ p.2 < C + 2 then 1 else 0) := by
  rw [pSum, pSum]
  have hpt : ∀ x y, dropFour s p x y =
      s x y - 4 * (if x = p.1 ∧ y = p.2 then 1 else 0) := by
    intro x y
    rw [dropFour]
    by_cases h : x = p.1 ∧ y = p.2
    · rw [if_pos h, if_pos h]
      ring
    · rw [if_neg h, if_neg h]
      ring
  calc ∑ x ∈ Finset.range (R + 2), ∑ y ∈ Finset.range (C + 2), dropFour s p x y
      = ∑ x ∈ Finset.range (R + 2), ∑ y ∈ Finset.range (C + 2),
          (s x y - 4 * (if x = p.1 ∧ y = p.2 then 1 else 0)) :=
        Finset.sum_congr rfl fun x _ => Finset.sum_congr rfl fun y _ => hpt x y
    _ = (∑ x ∈ Finset.range (R + 2), ∑ y ∈ Finset.range (C + 2), s x y)
        - ∑ x ∈ Finset.range (R + 2), ∑ y ∈ Finset.range (C + 2),
            (4 * if x = p.1 ∧ y = p.2 then (1 : Int) else 0) := by
        rw [← Finset.sum_sub_distrib]
        exact Finset.sum_congr rfl fun x _ => Finset.sum_sub_distrib
    _ = _ := by
        rw [show (∑ x ∈ Finset.range (R + 2), ∑ y ∈ Finset.range (C + 2),
            (4 * if x = p.1 ∧ y = p.2 then (1 : Int) else 0)) =
            4 * ∑ x ∈ Finset.range (R + 2), ∑ y ∈ Finset.range (C + 2),
              (if x = p.1 ∧ y = p.2 then (1 : Int) else 0) by
          rw [Finset.mul_sum]
          exact Finset.sum_congr rfl fun x _ => (Finset.mul_sum _ _ _).symm]
        rw [sum2_indicator]

theorem pSum_bumpPass (R C : Nat) (t : Nat × Nat → Nat × Nat) :
    ∀ (l : List (Nat × Nat)) (s : IGrid),
      (∀ u ∈ l, (t u).1 < R + 2 ∧ (t u).2 < C + 2) →
      pSum R C (bumpPass t l s) = pSum R C s + (l.length : Int) := by
  intro l
  induction l with
  | nil =>
      intro s _
      simp [bumpPass]
  | cons u l ih =>
      intro s hdom
      rw [bumpPass, List.foldl_cons, ← bumpPass,
        ih _ fun v hv => hdom v (List.mem_cons_of_mem u hv),
        pSum_bumpAt, if_pos (hdom u (List.mem_cons_self u l)), List.length_cons]
      push_cast
      ring

theorem pSum_dropPass (R C : Nat) :
    ∀ (l : List (Nat × Nat)) (s : IGrid),
      (∀ u ∈ l, u.1 < R + 2 ∧ u.2 < C + 2) →
      pSum R C (l.foldl dropFour s) = pSum R C s - 4 * (l.length : Int) := by
  intro l
  induction l with
  | nil =>
      intro s _
      simp
  | cons u l ih =>
      intro s hdom
      rw [List.foldl_cons, ih _ fun v hv => hdom v (List.mem_cons_of_mem u hv),
        pSum_dropFour, if_pos (hdom u (List.mem_cons_self u l)), List.length_cons]
      push_cast
      ring

theorem unstable_targets_dom {R C : Nat} {g : IGrid} (hb : borderZero R C g) :
    ∀ u ∈ unstableList R C g,
      ((upT (R + 2) u).1 < R + 2 ∧ (upT (R + 2) u).2 < C + 2) ∧
        ((downT u).1 < R + 2 ∧ (downT u).2 < C + 2) ∧
        ((leftT (C + 2) u).1 < R + 2 ∧ (leftT (C + 2) u).2 < C + 2) ∧
        ((rightT u).1 < R + 2 ∧ (rightT u).2 < C + 2) ∧
        (u.1 < R + 2 ∧ u.2 < C + 2) := by
  intro u hu
  have hi := unstable_interior hb hu
  rw [upT, downT, leftT, rightT]
  dsimp only
  rw [if_neg (show ¬u.1 = 0 by omega), if_neg (show ¬u.2 = 0 by omega)]
  refine ⟨⟨by omega, by omega⟩, ⟨by omega, by omega⟩, ⟨by omega, by omega⟩,
    ⟨by omega, by omega⟩, by omega, by omega⟩

/-- The topple conserves the total mass of the padded array (every chip
leaving a cell lands in the array). -/
theorem pSum_toppleScatter {R C : Nat} {g : IGrid} (hb : borderZero R C g) :
    pSum R C (toppleScatter R C g) = pSum R C g := by
  have hdom := unstable_targets_dom hb
  simp only [toppleScatter]
  rw [pSum_dropPass R C _ _ fun u hu => (hdom u hu).2.2.2.2,
    pSum_bumpPass R C rightT _ _ fun u hu => (hdom u hu).2.2.2.1,
    pSum_bumpPass R C (leftT (C + 2)) _ _ fun u hu => (hdom u hu).2.2.1,
    pSum_bumpPass R C downT _ _ fun u hu => (hdom u hu).2.1,
    pSum_bumpPass R C (upT (R + 2)) _ _ fun u hu => (hdom u hu).1]
  ring

theorem double_sum_zero {n m : Nat} {f : Nat → Nat → Int}
    (hnn : ∀ x ∈ Finset.range n, ∀ y ∈ Finset.range m, 0 ≤ f x y)
    (h0 : (∑ x ∈ Finset.range n, ∑ y ∈ Finset.range m, f x y) = 0) :
    ∀ x ∈ Finset.range n, ∀ y ∈ Finset.range m, f x y = 0 := by
  have houter :=
    (Finset.sum_eq_zero_iff_of_nonneg fun x hx => Finset.sum_nonneg (hnn x hx)).mp h0
  intro x hx
  exact (Finset.sum_eq_zero_iff_of_nonneg (hnn x hx)).mp (houter x hx)

theorem topple_self_count_zero {R C : Nat} {g : IGrid} {x y : Nat}
    (hg : ¬ 3 < g x y) :
    (unstableList R C g).countP (fun u => decide (u = (x, y))) = 0 := by
  rw [countP_unstable_single]
  dsimp only
  rw [if_neg]
  rintro ⟨-, -, h3⟩
  exact hg h3

/-- At a border cell the topple value is exactly the number of incoming chips. -/
theorem topple_border_value {R C : Nat} {g : IGrid} (hb : borderZero R C g)
    {x y : Nat} (hx : x < R + 2) (hy : y < C + 2) (hbd : isBorder R C x y) :
    toppleScatter R C g x y =
      ((unstableList R C g).countP fun u => decide (upT (R + 2) u = (x, y)) : Nat)
        + ((unstableList R C g).countP fun u => decide (downT u = (x, y)) : Nat)
        + ((unstableList R C g).countP fun u => decide (leftT (C + 2) u = (x, y)) : Nat)
        + ((unstableList R C g).countP fun u => decide (rightT u = (x, y)) : Nat) := by
  have hg : g x y = 0 := hb x hx y hy hbd
  rw [toppleScatter_counts, hg, topple_self_count_zero (by omega)]
  push_cast
  ring

theorem topple_border_nonneg {R C : Nat} {g : IGrid} (hb : borderZero R C g)
    {x y : Nat} (hx : x < R + 2) (hy : y < C + 2) (hbd : isBorder R C x y) :
    0 ≤ toppleScatter R C g x y := by
  rw [topple_border_value hb hx hy hbd]
  positivity

theorem bSum_topple_nonneg {R C : Nat} {g : IGrid} (hb : borderZero R C g) :
    0 ≤ bSum R C (toppleScatter R C g) := by
  rw [bSum]
  apply Finset.sum_nonneg
  intro x hx
  apply Finset.sum_nonneg
  intro y hy
  by_cases hbd : isBorder R C x y
  · rw [if_pos hbd]
    exact topple_border_nonneg hb (Finset.mem_range.mp hx) (Finset.mem_range.mp hy) hbd
  · rw [if_neg hbd]

/-- No unstable cell sits next to the border (so no chip can leak out). -/
def noBorderAdj (R C : Nat) (g : IGrid) : Prop :=
  ∀ x y, x < R + 2 → y < C + 2 → 3 < g x y →
    ¬(x = 1 ∨ x = R ∨ y = 1 ∨ y = C)

theorem bSum_topple_eq_zero_iff {R C : Nat} {g : IGrid} (hb : borderZero R C g) :
    bSum R C (toppleScatter R C g) = 0 ↔ noBorderAdj R C g := by
  constructor
  · intro h0
    intro x y hx hy hunst hadj
    have hmem : (x, y) ∈ unstableList R C g :=
      (mem_unstableList R C g (x, y)).mpr ⟨hx, hy, hunst⟩
    have hi := unstable_interior hb hmem
    dsimp only at hi
    rw [bSum] at h0
    have hnn : ∀ a ∈ Finset.range (R + 2), ∀ b ∈ Finset.range (C + 2),
        (0 : Int) ≤ if isBorder R C a b then toppleScatter R C g a b else 0 := by
      intro a ha b hbm
      by_cases hbd : isBorder R C a b
      · rw [if_pos hbd]
        exact topple_border_nonneg hb (Finset.mem_range.mp ha)
          (Finset.mem_range.mp hbm) hbd
      · rw [if_neg hbd]
    have hall := double_sum_zero hnn h0
    rcases hadj with h1 | h1 | h1 | h1
    · have hterm := hall 0 (Finset.mem_range.mpr (by omega)) y (Finset.mem_range.mpr hy)
      rw [if_pos (show isBorder R C 0 y from Or.inl rfl)] at hterm
      rw [topple_border_value hb (by omega) hy (Or.inl rfl)] at hterm
      have hc : 0 < (unstableList R C g).countP
          fun u => decide (upT (R + 2) u = (0, y)) := by
        rw [List.countP_pos_iff]
        refine ⟨(x, y), hmem, ?_⟩
        apply decide_eq_true
        rw [upT]
        dsimp only
        rw [if_neg (by omega : ¬ x = 0)]
        subst h1
        rfl
      omega
    · have hterm := hall (R + 1) (Finset.mem_range.mpr (by omega)) y
        (Finset.mem_range.mpr hy)
      rw [if_pos (show isBorder R C (R + 1) y from Or.inr (Or.inl rfl))] at hterm
      rw [topple_border_value hb (by omega) hy (Or.inr (Or.inl rfl))] at hterm
      have hc : 0 < (unstableList R C g).countP
          fun u => decide (downT u = (R + 1, y)) := by
        rw [List.countP_pos_iff]
        refine ⟨(x, y), hmem, ?_⟩
        apply decide_eq_true
        rw [downT]
        dsimp only
        subst h1
        rfl
      omega
    · have hterm := hall x (Finset.mem_range.mpr hx) 0 (Finset.mem_range.mpr (by omega))
      rw [if_pos (show isBorder R C x 0 from Or.inr (Or.inr (Or.inl rfl)))] at hterm
      rw [topple_border_value hb hx (by omega) (Or.inr (Or.inr (Or.inl rfl)))] at hterm
      have hc : 0 < (unstableList R C g).countP
          fun u => decide (leftT (C + 2) u = (x, 0)) := by
        rw [List.countP_pos_iff]
        refine ⟨(x, y), hmem, ?_⟩
        apply decide_eq_true
        rw [leftT]
        dsimp only
        rw [if_neg (by omega : ¬ y = 0)]
        subst h1
        rfl
      omega
    · have hterm := hall x (Finset.mem_range.mpr hx) (C + 1)
        (Finset.mem_range.mpr (by omega))
      rw [if_pos (show isBorder R C x (C + 1) from
        Or.inr (Or.inr (Or.inr rfl)))] at hterm
      rw [topple_border_value hb hx (by omega)
        (Or.inr (Or.inr (Or.inr rfl)))] at hterm
      have hc : 0 < (unstableList R C g).countP
          fun u => decide (rightT u = (x, C + 1)) := by
        rw [List.countP_pos_iff]
        refine ⟨(x, y), hmem, ?_⟩
        apply decide_eq_true
        rw [rightT]
        dsimp only
        subst h1
        rfl
      omega
  · intro hna
    rw [bSum]
    apply Finset.sum_eq_zero
    intro x hx
    apply Finset.sum_eq_zero
    intro y hy
    by_cases hbd : isBorder R C x y
    · rw [if_pos hbd,
        topple_border_value hb (Finset.mem_range.mp hx) (Finset.mem_range.mp hy) hbd]
      have hup : ((unstableList R C g).countP
          fun u => decide (upT (R + 2) u = (x, y))) = 0 := by
        rw [List.countP_eq_zero]
        intro u hu hpred
        have hi := unstable_interior hb hu
        have hmem := (mem_unstableList R C g u).mp hu
        have hnau := hna u.1 u.2 hmem.1 hmem.2.1 hmem.2.2
        have heq := of_decide_eq_true hpred
        rw [upT, if_neg (by omega : ¬ u.1 = 0)] at heq
        have e1 := congrArg Prod.fst heq
        have e2 := congrArg Prod.snd heq
        dsimp only at e1 e2
        rcases hbd with hb1 | hb1 | hb1 | hb1 <;> omega
      have hdown : ((unstableList R C g).countP
          fun u => decide (downT u = (x, y))) = 0 := by
        rw [List.countP_eq_zero]
        intro u hu hpred
        have hi := unstable_interior hb hu
        have hmem := (mem_unstableList R C g u).mp hu
        have hnau := hna u.1 u.2 hmem.1 hmem.2.1 hmem.2.2
        have heq := of_decide_eq_true hpred
        rw [downT] at heq
        have e1 := congrArg Prod.fst heq
        have e2 := congrArg Prod.snd heq
        dsimp only at e1 e2
        rcases hbd with hb1 | hb1 | hb1 | hb1 <;> omega
      have hleft : ((unstableList R C g).countP
          fun u => decide (leftT (C + 2) u = (x, y))) = 0 := by
        rw [List.countP_eq_zero]
        intro u hu hpred
        have hi := unstable_interior hb hu
        have hmem := (mem_unstableList R C g u).mp hu
        have hnau := hna u.1 u.2 hmem.1 hmem.2.1 hmem.2.2
        have heq := of_decide_eq_true hpred
        rw [leftT, if_neg (by omega : ¬ u.2 = 0)] at heq
        have e1 := congrArg Prod.fst heq
        have e2 := congrArg Prod.snd heq
        dsimp only at e1 e2
        rcases hbd with hb1 | hb1 | hb1 | hb1 <;> omega
      have hright : ((unstableList R C g).countP
          fun u => decide (rightT u = (x, y))) = 0 := by
        rw [List.countP_eq_zero]
        intro u hu hpred
        have hi := unstable_interior hb hu
        have hmem := (mem_unstableList R C g u).mp hu
        have hnau := hna u.1 u.2 hmem.1 hmem.2.1 hmem.2.2
        have heq := of_decide_eq_true hpred
        rw [rightT] at heq
        have e1 := congrArg Prod.fst heq
        have e2 := congrArg Prod.snd heq
        dsimp only at e1 e2
        rcases hbd with hb1 | hb1 | hb1 | hb1 <;> omega
      rw [hup, hdown, hleft, hright]
      norm_num
    · rw [if_neg hbd]

theorem pSum_iterate1 (R C : Nat) (g : IGrid) :
    pSum R C (iterate1 R C g) =
      pSum R C (toppleScatter R C g) - bSum R C (toppleScatter R C g) := by
  rw [pSum, pSum, bSum, ← Finset.sum_sub_distrib]
  apply Finset.sum_congr rfl
  intro x hx
  rw [← Finset.sum_sub_distrib]
  apply Finset.sum_congr rfl
  intro y hy
  simp only [iterate1]
  by_cases hbd : isBorder R C x y
  · rw [if_neg (fun h => h.2.2 hbd), if_pos hbd]
    ring
  · rw [if_pos ⟨Finset.mem_range.mp hx, Finset.mem_range.mp hy, hbd⟩, if_neg hbd]
    ring

theorem pSum_iterate1_le {R C : Nat} {g : IGrid} (hb : borderZero R C g) :
    pSum R C (iterate1 R C g) ≤ pSum R C g := by
  rw [pSum_iterate1, pSum_toppleScatter hb]
  have := bSum_topple_nonneg hb
  omega

theorem pSum_iterate1_eq_iff {R C : Nat} {g : IGrid} (hb : borderZero R C g) :
    pSum R C (iterate1 R C g) = pSum R C g ↔ noBorderAdj R C g := by
  rw [pSum_iterate1, pSum_toppleScatter hb, ← bSum_topple_eq_zero_iff hb]
  omega

/-- Along the run, every iteration that actually topples has no unstable cell
adjacent to the border ("no topple ever reaches the border"). -/
def NoBorderTopple (R C : Nat) : Nat → IGrid → Prop
  | 0, _ => True
  | fuel + 1, g =>
      stableP R C g ∨ (noBorderAdj R C g ∧ NoBorderTopple R C fuel (iterate1 R C g))

theorem borderZero_iterate1 (R C : Nat) (g : IGrid) :
    borderZero R C (iterate1 R C g) :=
  paddedZero_borderZero (paddedZero_iterate1 R C g)

theorem relaxLoop_mass (R C : Nat) :
    ∀ fuel (g res : IGrid), borderZero R C g → relaxLoop R C fuel g = some res →
      pSum R C res ≤ pSum R C g ∧
        (pSum R C res = pSum R C g ↔ NoBorderTopple R C fuel g) := by
  intro fuel
  induction fuel with
  | zero =>
      intro g res hb h
      rw [relaxLoop] at h
      by_cases hs : stableP R C g
      · rw [if_pos hs] at h
        injection h with h'
        subst h'
        exact ⟨le_refl _, by simp [NoBorderTopple]⟩
      · rw [if_neg hs] at h
        exact Option.noConfusion h
  | succ fuel ih =>
      intro g res hb h
      rw [relaxLoop] at h
      by_cases hs : stableP R C g
      · rw [if_pos hs] at h
        injection h with h'
        subst h'
        refine ⟨le_refl _, ?_⟩
        simp only [NoBorderTopple]
        constructor
        · intro _
          exact Or.inl hs
        · intro _
          trivial
      · rw [if_neg hs] at h
        have hb' := borderZero_iterate1 R C g
        obtain ⟨hle, hiff⟩ := ih (iterate1 R C g) res hb' h
        have hle2 := pSum_iterate1_le hb
        have hiff2 := pSum_iterate1_eq_iff hb
        constructor
        · omega
        · simp only [NoBorderTopple]
          constructor
          · intro heq
            have h1 : pSum R C res = pSum R C (iterate1 R C g) := by omega
            have h2 : pSum R C (iterate1 R C g) = pSum R C g := by omega
            exact Or.inr ⟨hiff2.mp h2, hiff.mp h1⟩
          · rintro (hstab | ⟨hna, hnbt⟩)
            · exact absurd hstab hs
            · have h2 := hiff2.mpr hna
              have h1 := hiff.mpr hnbt
              omega

theorem sum_range_shift (f : Nat → Int) (n : Nat) (h0 : f 0 = 0)
    (hend : f (n + 1) = 0) :
    (∑ x ∈ Finset.range (n + 2), f x) = ∑ x ∈ Finset.range n, f (x + 1) := by
  rw [Finset.sum_range_succ, hend, add_zero, Finset.sum_range_succ', h0, add_zero]

theorem pSum_padG (R C : Nat) (g : IGrid) : pSum R C (padG R C g) = gSum R C g := by
  rw [pSum, gSum]
  rw [sum_range_shift (fun x => ∑ y ∈ Finset.range (C + 2), padG R C g x y) R
    (Finset.sum_eq_zero fun y _ => by
      simp only [padG]
      rw [if_neg]
      rintro ⟨h1, -⟩
      omega)
    (Finset.sum_eq_zero fun y _ => by
      simp only [padG]
      rw [if_neg]
      rintro ⟨-, h2, -⟩
      omega)]
  apply Finset.sum_congr rfl
  intro x hx
  have hxR := Finset.mem_range.mp hx
  rw [sum_range_shift (fun y => padG R C g (x + 1) y) C
    (by
      simp only [padG]
      rw [if_neg]
      rintro ⟨-, -, h3, -⟩
      omega)
    (by
      simp only [padG]
      rw [if_neg]
      rintro ⟨-, -, -, h4⟩
      omega)]
  apply Finset.sum_congr rfl
  intro y hy
  have hyC := Finset.mem_range.mp hy
  simp only [padG]
  rw [if_pos ⟨by omega, by omega, by omega, by omega⟩]
  simp only [Nat.add_sub_cancel]

theorem gSum_stripG {R C : Nat} {h0 : IGrid} (hz : paddedZero R C h0) :
    gSum R C (stripG h0) = pSum R C h0 := by
  rw [pSum, gSum]
  rw [sum_range_shift (fun x => ∑ y ∈ Finset.range (C + 2), h0 x y) R
    (Finset.sum_eq_zero fun y _ => hz 0 y (Or.inr (Or.inr (Or.inl rfl))))
    (Finset.sum_eq_zero fun y _ =>
      hz (R + 1) y (Or.inr (Or.inr (Or.inr (Or.inl rfl)))))]
  apply Finset.sum_congr rfl
  intro x _
  rw [sum_range_shift (fun y => h0 (x + 1) y) C
    (hz (x + 1) 0 (Or.inr (Or.inr (Or.inr (Or.inr (Or.inl rfl))))))
    (hz (x + 1) (C + 1) (Or.inr (Or.inr (Or.inr (Or.inr (Or.inr rfl))))))]
  rfl

/-- **C6**: whenever the relaxation returns, the total mass of the returned
grid is at most that of the input, with equality iff the input was already
stable ("no cell ever exceeded 3") or no topple along the run happened at a
cell adjacent to the border ("no topple reached the border"). -/
theorem sandpile_mass_nonincreasing (R C fuel : Nat) (g res : IGrid)
    (h : sandpile R C fuel g = some res) :
    gSum R C res ≤ gSum R C g ∧
      (gSum R C res = gSum R C g ↔
        (stableP R C (padG R C g) ∨ NoBorderTopple R C fuel (padG R C g))) := by
  rcases sandpile_inv h with ⟨h0, hloop, hstrip, hstab, hzero⟩
  have hbz : borderZero R C (padG R C g) :=
    paddedZero_borderZero (paddedZero_padG R C g)
  obtain ⟨hle, hiff⟩ := relaxLoop_mass R C fuel _ _ hbz hloop
  have e1 : gSum R C res = pSum R C h0 := by
    rw [hstrip]
    exact gSum_stripG hzero
  have e2 : gSum R C g = pSum R C (padG R C g) := (pSum_padG R C g).symm
  have hstabnbt : stableP R C (padG R C g) →
      NoBorderTopple R C fuel (padG R C g) := by
    intro hs
    cases fuel with
    | zero => exact True.intro
    | succ fuel => exact Or.inl hs
  constructor
  · rw [e1, e2]
    exact hle
  · rw [e1, e2]
    constructor
    · intro heq
      exact Or.inr (hiff.mp heq)
    · rintro (hs | hnbt)
      · exact hiff.mpr (hstabnbt hs)
      · exact hiff.mpr hnbt

theorem sandpile_mass_nonincreasing_w :
    sandpile 1 1 0 stableGrid1 = some stableGrid1 ∧
      gSum 1 1 stableGrid1 ≤ gSum 1 1 stableGrid1 ∧
        (gSum 1 1 stableGrid1 = gSum 1 1 stableGrid1 ↔
          (stableP 1 1 (padG 1 1 stableGrid1) ∨
            NoBorderTopple 1 1 0 (padG 1 1 stableGrid1))) :=
  ⟨stableGrid1_run,
    sandpile_mass_nonincreasing 1 1 0 stableGrid1 stableGrid1 stableGrid1_run⟩

theorem sandpile_idempotent_w :
    sandpile 1 1 0 stableGrid1 = some stableGrid1 :=
  (sandpile_idempotent 1 1 0 0 stableGrid1 stableGrid1).1
    ((sandpile_idempotent 1 1 0 0 stableGrid1 stableGrid1).2 (by decide)
      (by
        intro x y h
        rw [stableGrid1, if_neg]
        rintro ⟨h1, h2⟩
        omega))

theorem sandpile_topples_simultaneously_w :
    borderZero 1 1 exGrid1 ∧
      toppleScatter 1 1 exGrid1 1 1 =
        exGrid1 1 1 + unstableNbrs exGrid1 1 1 - (if 3 < exGrid1 1 1 then 4 else 0) :=
  ⟨by decide, sandpile_topples_simultaneously 1 1 exGrid1 (by decide) 1 1
    (by decide) (by decide) (by decide) (by decide)⟩

/-! ## Game of Life on the square grid (`life`, automata.py lines 54–123)

The state is a boolean `R × C` grid.  `conv` (lines 86–91) is the 3×3
convolution with the ring filter of line 81, i.e. the sum of the eight Moore
neighbours taken from the snapshot; with `boundary='wrap'` indices wrap
modulo the grid dimensions, with `boundary='fill'` cells outside the grid
count as 0.  The two masked assignments of lines 94–104 set cells with count
outside {2, 3} to 0 and cells with count 3 to 1; cells with count 2 keep
their previous value.  `for _ in range(nsteps)` performs `nsteps.toNat`
iterations (an empty loop when `nsteps` is negative). -/

/-- Boolean grid. -/
abbrev BGrid := Nat → Nat → Bool

/-- The eight Moore offsets of the ring filter of line 81. -/
def mooreOffsets : Finset (Int × Int) :=
  {(-1, -1), (-1, 0), (-1, 1), (0, -1), (0, 1), (1, -1), (1, 0), (1, 1)}

/-- Read the snapshot at (possibly out-of-range) integer coordinates,
following the chosen convolution boundary mode. -/
def cellAt (R C : Nat) (periodic : Bool) (g : BGrid) (i j : Int) : Bool :=
  if periodic then g ((i % (R : Int)).toNat) ((j % (C : Int)).toNat)
  else if 0 ≤ i ∧ i < (R : Int) ∧ 0 ≤ j ∧ j < (C : Int) then g i.toNat j.toNat
  else false

/-- `conv[x, y]`: the number of live Moore neighbours of `(x, y)`. -/
def nbrCount (R C : Nat) (periodic : Bool) (g : BGrid) (x y : Nat) : Nat :=
  (mooreOffsets.filter fun d =>
    cellAt R C periodic g ((x : Int) + d.1) ((y : Int) + d.2) = true).card

/-- Lines 86–104: one synchronous step of `life`. -/
def lifeStep (R C : Nat) (periodic : Bool) (g : BGrid) : BGrid :=
  fun x y =>
    if x < R ∧ y < C then
      let n := nbrCount R C periodic g x y
      if 3 < n ∨ n < 2 then false
      else if n = 3 then true
      else g x y
    else false

/-- The loop of line 83. -/
def lifeRun (R C : Nat) (periodic : Bool) : Nat → BGrid → BGrid
  | 0, g => g
  | n + 1, g => lifeRun R C periodic n (lifeStep R C periodic g)

/-- The whole `life` function. -/
def life (R C : Nat) (g : BGrid) (nsteps : Int) (periodic : Bool) : BGrid :=
  lifeRun R C periodic nsteps.toNat g

theorem lifeRun_succ (R C : Nat) (p : Bool) (n : Nat) (g : BGrid) :
    lifeRun R C p (n + 1) g = lifeStep R C p (lifeRun R C p n g) := by
  induction n generalizing g with
  | zero => rfl
  | succ n ih =>
      calc lifeRun R C p (n + 1 + 1) g
          = lifeRun R C p (n + 1) (lifeStep R C p g) := rfl
        _ = lifeStep R C p (lifeRun R C p n (lifeStep R C p g)) := ih _
        _ = lifeStep R C p (lifeRun R C p (n + 1) g) := rfl

/-- **C2**: every step of the square-grid engine maps the pre-step snapshot
to the grid given by the standard Life rule — a live cell survives iff its
Moore-neighbour count (in the snapshot) is 2 or 3, a dead cell is born iff
that count is 3 — and out-of-range cells count as dead in fixed mode while
periodic mode reads the grid modulo its dimensions. -/
theorem life_standard_rule (R C : Nat) (periodic : Bool) (g : BGrid) (n x y : Nat)
    (hx : x < R) (hy : y < C) :
    (lifeRun R C periodic (n + 1) g x y = true ↔
      ((lifeRun R C periodic n g x y = true ∧
          (nbrCount R C periodic (lifeRun R C periodic n g) x y = 2 ∨
            nbrCount R C periodic (lifeRun R C periodic n g) x y = 3)) ∨
        (lifeRun R C periodic n g x y = false ∧
          nbrCount R C periodic (lifeRun R C periodic n g) x y = 3))) ∧
      (∀ i j : Int, periodic = false →
        (i < 0 ∨ (R : Int) ≤ i ∨ j < 0 ∨ (C : Int) ≤ j) →
        cellAt R C periodic g i j = false) ∧
      (∀ i j : Int, periodic = true →
        cellAt R C periodic g i j = g ((i % (R : Int)).toNat) ((j % (C : Int)).toNat)) := by
  refine ⟨?_, ?_, ?_⟩
  · rw [lifeRun_succ]
    simp only [lifeStep]
    rw [if_pos ⟨hx, hy⟩]
    generalize lifeRun R C periodic n g = s
    generalize hm : nbrCount R C periodic s x y = m
    by_cases h1 : 3 < m ∨ m < 2
    · rw [if_pos h1]
      simp only [Bool.false_eq_true, false_iff]
      rintro (⟨-, h2⟩ | ⟨-, h2⟩) <;> omega
    · rw [if_neg h1]
      by_cases h2 : m = 3
      · rw [if_pos h2]
        constructor
        · intro _
          cases hsb : s x y with
          | true => exact Or.inl ⟨rfl, Or.inr h2⟩
          | false => exact Or.inr ⟨rfl, h2⟩
        · intro _
          rfl
      · rw [if_neg h2]
        have hm2 : m = 2 := by omega
        constructor
        · intro hs
          exact Or.inl ⟨hs, Or.inl hm2⟩
        · rintro (⟨hs, -⟩ | ⟨-, h3⟩)
          · exact hs
          · omega
  · intro i j hper hout
    subst hper
    rw [cellAt, if_neg (by simp), if_neg (by omega)]
  · intro i j hper
    subst hper
    rw [cellAt, if_pos rfl]

/-- A concrete all-live 1×1 grid. -/
def lifeG1 : BGrid := fun _ _ => true

theorem life_standard_rule_w :
    (lifeRun 1 1 false 1 lifeG1 0 0 = true ↔
      ((lifeRun 1 1 false 0 lifeG1 0 0 = true ∧
          (nbrCount 1 1 false (lifeRun 1 1 false 0 lifeG1) 0 0 = 2 ∨
            nbrCount 1 1 false (lifeRun 1 1 false 0 lifeG1) 0 0 = 3)) ∨
        (lifeRun 1 1 false 0 lifeG1 0 0 = false ∧
          nbrCount 1 1 false (lifeRun 1 1 false 0 lifeG1) 0 0 = 3))) ∧
      (∀ i j : Int, false = false →
        (i < 0 ∨ (1 : Int) ≤ i ∨ j < 0 ∨ (1 : Int) ≤ j) →
        cellAt 1 1 false lifeG1 i j = false) ∧
      (∀ i j : Int, false = true →
        cellAt 1 1 false lifeG1 i j =
          lifeG1 ((i % (1 : Int)).toNat) ((j % (1 : Int)).toNat)) :=
  life_standard_rule 1 1 false lifeG1 0 0 0 (by decide) (by decide)

/-! ## Game of Life on an arbitrary graph (`life_generic`, lines 195–240)

States are boolean vectors of length `n` (`n = len(initial_state)`);
`matrix` is the boolean adjacency relation.  `neighbors = np.dot(matrix[x, :],
in_state[:])` is the number of live neighbours of `x` (the dot product of the
0/1 adjacency row with the 0/1 state vector).  Lines 231–234 first kill any
cell whose count is not in `environment`; otherwise the `elif` compares the
scalar count with the array `np.array(list(fertility))`: for a singleton
`fertility` this is an ordinary equality test, for an empty set the
comparison is an empty array (falsy), and for two or more elements the truth
test of the comparison array raises `ValueError`, modelled as `none`.  Cells
hit by neither branch keep their previous value (`aux` carries the previous
state into the next step, line 235). -/

/-- Boolean state vector. -/
abbrev BVec := Nat → Bool

/-- `np.dot(matrix[x, :], in_state[:])` on 0/1 data: the number of `j < n`
with `matrix x j` and `in_state j` both set. -/
def dotCount (n : Nat) (matrix : Nat → Nat → Bool) (s : BVec) (x : Nat) : Nat :=
  ∑ j ∈ Finset.range n, if matrix x j = true ∧ s j = true then 1 else 0

/-- Lines 231–234 for one cell; `none` models the `ValueError` raised by the
truth test of a comparison array of length ≥ 2. -/
def genericCell (environment fertility : List Nat) (old : Bool) (cnt : Nat) :
    Option Bool :=
  if cnt ∈ environment then
    match fertility with
    | [] => some old
    | [b] => some (if cnt = b then true else old)
    | _ => none
  else some false

/-- The `for x in range(irows)` loop of line 226: `snap` is `in_state`
(read-only within the step), `aux` accumulates the writes. -/
def genericLoop (matrix : Nat → Nat → Bool) (environment fertility : List Nat)
    (n : Nat) (snap : BVec) : List Nat → BVec → Option BVec
  | [], aux => some aux
  | x :: xs, aux =>
      match genericCell environment fertility (aux x) (dotCount n matrix snap x) with
      | none => none
      | some b =>
          genericLoop matrix environment fertility n snap xs
            fun q => if q = x then b else aux q

/-- One step of `life_generic`. -/
def genericStep (n : Nat) (matrix : Nat → Nat → Bool)
    (environment fertility : List Nat) (s : BVec) : Option BVec :=
  genericLoop matrix environment fertility n s (List.range n) s

/-- The step loop of line 224. -/
def genericRun (n : Nat) (matrix : Nat → Nat → Bool)
    (environment fertility : List Nat) : Nat → BVec → Option BVec
  | 0, s => some s
  | k + 1, s =>
      match genericStep n matrix environment fertility s with
      | none => none
      | some t => genericRun n matrix environment fertility k t

/-- The whole `life_generic` function (`n` is the state-vector length the
source reads off `initial_state`). -/
def life_generic (matrix : Nat → Nat → Bool) (s : BVec) (nsteps : Int)
    (n : Nat) (environment fertility : List Nat) : Option BVec :=
  genericRun n matrix environment fertility nsteps.toNat s

/-- Adjacency of a 2-cycle: cells 0 and 1 are neighbours of each other. -/
def pairMatrix : Nat → Nat → Bool := fun i j =>
  decide ((i = 0 ∧ j = 1) ∨ (i = 1 ∧ j = 0))

/-- State vector with only cell 1 alive. -/
def pairState : BVec := fun i => decide (i = 1)

/-- **C3**: the generic engine does *not* implement "alive iff (was alive and
count ∈ survive) or count ∈ birth": birth is gated behind membership in the
survive set.  With survive = {2} and birth = {1}, dead cell 0 has exactly one
live neighbour, so the claimed rule would make it live, but the engine kills
it (count 1 ∉ {2} hits the first branch).  This theorem evaluates the engine
at that failing input. -/
theorem life_generic_birth_gated :
    (life_generic pairMatrix pairState 1 2 [2] [1]).map (fun v => (v 0, v 1)) =
      some (false, false) := by
  decide

/-! ### The generic engine instantiated with the 8-neighbour grid topology -/

/-- Row-major flattening of an `R × C` boolean grid into a state vector. -/
def flatten (R C : Nat) (g : BGrid) : BVec :=
  fun i => if i < R * C then g (i / C) (i % C) else false

/-- The 8-neighbour, non-periodic adjacency relation on the flattened grid:
cells are adjacent iff they are distinct, in range, and their row and column
indices each differ by at most 1 (claim C7's constructed input). -/
def adjMoore (R C : Nat) : Nat → Nat → Bool := fun i j =>
  decide (i < R * C ∧ j < R * C ∧ i ≠ j ∧
    (((i / C : Nat) : Int) - ((j / C : Nat) : Int)).natAbs ≤ 1 ∧
    (((i % C : Nat) : Int) - ((j % C : Nat) : Int)).natAbs ≤ 1)

theorem mem_mooreOffsets (d : Int × Int) :
    d ∈ mooreOffsets ↔ d.1.natAbs ≤ 1 ∧ d.2.natAbs ≤ 1 ∧ d ≠ (0, 0) := by
  obtain ⟨d1, d2⟩ := d
  constructor
  · intro hd
    simp only [mooreOffsets, Finset.mem_insert, Finset.mem_singleton,
      Prod.mk.injEq] at hd
    rcases hd with ⟨h1, h2⟩ | ⟨h1, h2⟩ | ⟨h1, h2⟩ | ⟨h1, h2⟩ | ⟨h1, h2⟩ | ⟨h1, h2⟩ |
      ⟨h1, h2⟩ | ⟨h1, h2⟩ <;> subst h1 <;> subst h2 <;>
      exact ⟨by decide, by decide, by decide⟩
  · rintro ⟨h1, h2, h3⟩
    have hne : ¬(d1 = 0 ∧ d2 = 0) := by
      rintro ⟨e1, e2⟩
      exact h3 (by rw [e1, e2])
    have ha : d1 = -1 ∨ d1 = 0 ∨ d1 = 1 := by omega
    have hb : d2 = -1 ∨ d2 = 0 ∨ d2 = 1 := by omega
    simp only [mooreOffsets, Finset.mem_insert, Finset.mem_singleton, Prod.mk.injEq]
    rcases ha with h | h | h <;> rcases hb with h' | h' | h' <;> subst h <;> subst h'
    · decide
    · decide
    · decide
    · decide
    · exact absurd ⟨rfl, rfl⟩ hne
    · decide
    · decide
    · decide
    · decide

theorem encode_div {C : Nat} (hC : 0 < C) (a b : Nat) (hb : b < C) :
    (a * C + b) / C = a := by
  rw [show a * C + b = b + C * a from by ring, Nat.add_mul_div_left _ _ hC,
    Nat.div_eq_of_lt hb, Nat.zero_add]

theorem encode_mod {C : Nat} (a b : Nat) (hb : b < C) :
    (a * C + b) % C = b := by
  rw [show a * C + b = b + C * a from by ring, Nat.add_mul_mod_self_left,
    Nat.mod_eq_of_lt hb]

theorem encode_lt {R C : Nat} {a b : Nat} (ha : a < R) (hb : b < C) :
    a * C + b < R * C :=
  calc a * C + b < a * C + C := by omega
    _ = (a + 1) * C := by ring
    _ ≤ R * C := Nat.mul_le_mul_right C ha

/-- The dot product of the Moore-adjacency row of cell `(x, y)` with the
flattened snapshot is exactly the fixed-boundary Moore neighbour count. -/
theorem dotCount_adjMoore (R C : Nat) (hC : 0 < C) (g : BGrid) (x y : Nat)
    (hx : x < R) (hy : y < C) :
    dotCount (R * C) (adjMoore R C) (flatten R C g) (x * C + y) =
      nbrCount R C false g x y := by
  have hdivx : (x * C + y) / C = x := encode_div hC x y hy
  have hmody : (x * C + y) % C = y := encode_mod x y hy
  have hcard : dotCount (R * C) (adjMoore R C) (flatten R C g) (x * C + y) =
      ((Finset.range (R * C)).filter fun j =>
        adjMoore R C (x * C + y) j = true ∧ flatten R C g j = true).card := by
    rw [dotCount]
    exact (Finset.card_filter _ _).symm
  rw [hcard, nbrCount]
  refine Finset.card_nbij'
    (fun j => (((j / C : Nat) : Int) - (x : Int), ((j % C : Nat) : Int) - (y : Int)))
    (fun d => ((x : Int) + d.1).toNat * C + ((y : Int) + d.2).toNat)
    ?_ ?_ ?_ ?_
  · intro j hj
    rw [Finset.mem_filter, Finset.mem_range] at hj
    obtain ⟨hjn, hadj, hlive⟩ := hj
    simp only [adjMoore, decide_eq_true_eq] at hadj
    obtain ⟨-, -, hne, hd1, hd2⟩ := hadj
    rw [hdivx] at hd1
    rw [hmody] at hd2
    have haR : j / C < R := by
      rw [Nat.div_lt_iff_lt_mul hC]
      exact hjn
    have hbC : j % C < C := Nat.mod_lt _ hC
    have hjdm : j / C * C + j % C = j := Nat.div_add_mod' j C
    rw [Finset.mem_filter]
    constructor
    · rw [mem_mooreOffsets]
      dsimp only
      refine ⟨by omega, by omega, ?_⟩
      intro hzero
      have e1 : ((j / C : Nat) : Int) - (x : Int) = 0 := congrArg Prod.fst hzero
      have e2 : ((j % C : Nat) : Int) - (y : Int) = 0 := congrArg Prod.snd hzero
      have h1 : j / C = x := by omega
      have h2 : j % C = y := by omega
      rw [h1, h2] at hjdm
      exact hne hjdm
    · dsimp only
      have hxa : (x : Int) + (((j / C : Nat) : Int) - (x : Int)) =
          ((j / C : Nat) : Int) := by ring
      have hyb : (y : Int) + (((j % C : Nat) : Int) - (y : Int)) =
          ((j % C : Nat) : Int) := by ring
      rw [hxa, hyb, cellAt, if_neg (by simp : ¬(false = true)),
        if_pos ⟨Int.natCast_nonneg _, by exact_mod_cast haR,
          Int.natCast_nonneg _, by exact_mod_cast hbC⟩,
        Int.toNat_natCast, Int.toNat_natCast]
      simp only [flatten] at hlive
      rw [if_pos hjn] at hlive
      exact hlive
  · intro d hd
    obtain ⟨d1, d2⟩ := d
    rw [Finset.mem_filter] at hd
    obtain ⟨hdm, hcell⟩ := hd
    rw [mem_mooreOffsets] at hdm
    dsimp only at hdm hcell ⊢
    obtain ⟨hn1, hn2, hne⟩ := hdm
    rw [cellAt, if_neg (by simp : ¬(false = true))] at hcell
    by_cases hg : 0 ≤ (x : Int) + d1 ∧ (x : Int) + d1 < (R : Int) ∧
        0 ≤ (y : Int) + d2 ∧ (y : Int) + d2 < (C : Int)
    · rw [if_pos hg] at hcell
      obtain ⟨hg1, hg2, hg3, hg4⟩ := hg
      have hca : ((((x : Int) + d1).toNat : Nat) : Int) = (x : Int) + d1 :=
        Int.toNat_of_nonneg hg1
      have hcb : ((((y : Int) + d2).toNat : Nat) : Int) = (y : Int) + d2 :=
        Int.toNat_of_nonneg hg3
      have haR : ((x : Int) + d1).toNat < R := by omega
      have hbC : ((y : Int) + d2).toNat < C := by omega
      rw [Finset.mem_filter, Finset.mem_range]
      refine ⟨encode_lt haR hbC, ?_, ?_⟩
      · simp only [adjMoore, decide_eq_true_eq]
        refine ⟨encode_lt hx hy, encode_lt haR hbC, ?_, ?_, ?_⟩
        · intro heq
          have e1 : x = ((x : Int) + d1).toNat := by
            have h' := congrArg (fun z => z / C) heq
            dsimp only at h'
            rw [encode_div hC x y hy, encode_div hC _ _ hbC] at h'
            exact h'
          have e2 : y = ((y : Int) + d2).toNat := by
            have h' := congrArg (fun z => z % C) heq
            dsimp only at h'
            rw [encode_mod x y hy, encode_mod _ _ hbC] at h'
            exact h'
          apply hne
          have hd1z : d1 = 0 := by omega
          have hd2z : d2 = 0 := by omega
          rw [hd1z, hd2z]
        · rw [hdivx, encode_div hC _ _ hbC]
          omega
        · rw [hmody, encode_mod _ _ hbC]
          omega
      · simp only [flatten]
        rw [if_pos (encode_lt haR hbC), encode_div hC _ _ hbC, encode_mod _ _ hbC]
        exact hcell
    · rw [if_neg hg] at hcell
      exact absurd hcell (by simp)
  · intro j hj
    rw [Finset.mem_filter, Finset.mem_range] at hj
    obtain ⟨hjn, -, -⟩ := hj
    dsimp only
    have hxa : (x : Int) + (((j / C : Nat) : Int) - (x : Int)) =
        ((j / C : Nat) : Int) := by ring
    have hyb : (y : Int) + (((j % C : Nat) : Int) - (y : Int)) =
        ((j % C : Nat) : Int) := by ring
    rw [hxa, hyb, Int.toNat_natCast, Int.toNat_natCast]
    exact Nat.div_add_mod' j C
  · intro d hd
    obtain ⟨d1, d2⟩ := d
    rw [Finset.mem_filter] at hd
    obtain ⟨hdm, hcell⟩ := hd
    dsimp only at hcell ⊢
    rw [cellAt, if_neg (by simp : ¬(false = true))] at hcell
    by_cases hg : 0 ≤ (x : Int) + d1 ∧ (x : Int) + d1 < (R : Int) ∧
        0 ≤ (y : Int) + d2 ∧ (y : Int) + d2 < (C : Int)
    · obtain ⟨hg1, hg2, hg3, hg4⟩ := hg
      have hca : ((((x : Int) + d1).toNat : Nat) : Int) = (x : Int) + d1 :=
        Int.toNat_of_nonneg hg1
      have hcb : ((((y : Int) + d2).toNat : Nat) : Int) = (y : Int) + d2 :=
        Int.toNat_of_nonneg hg3
      have hbC : ((y : Int) + d2).toNat < C := by omega
      rw [encode_div hC _ _ hbC, encode_mod _ _ hbC, Prod.mk.injEq]
      constructor <;> omega
    · rw [if_neg hg] at hcell
      exact absurd hcell (by simp)

/-- The gated update of `life_generic` with survive {2,3}, birth {3} agrees
with the standard Life update of `life` (the gating is invisible here because
the birth count 3 lies in the survive set). -/
theorem rule_forms_eq (old : Bool) (cnt : Nat) :
    (if cnt ∈ [2, 3] then (if cnt = 3 then true else old) else false) =
      (if 3 < cnt ∨ cnt < 2 then false else if cnt = 3 then true else old) := by
  by_cases h : cnt ∈ [2, 3]
  · have hc : cnt = 2 ∨ cnt = 3 := by simpa using h
    rw [if_pos h, if_neg (show ¬(3 < cnt ∨ cnt < 2) by omega)]
  · have hc : ¬(cnt = 2 ∨ cnt = 3) := by simpa using h
    rw [if_neg h, if_pos (show 3 < cnt ∨ cnt < 2 by omega)]

theorem genericLoop_singleton (matrix : Nat → Nat → Bool) (env : List Nat)
    (b n : Nat) (snap : BVec) :
    ∀ l : List Nat, l.Nodup → ∀ aux : BVec,
      genericLoop matrix env [b] n snap l aux =
        some fun q =>
          if q ∈ l then
            if dotCount n matrix snap q ∈ env then
              if dotCount n matrix snap q = b then true else aux q
            else false
          else aux q := by
  intro l
  induction l with
  | nil =>
      intro _ aux
      rw [genericLoop]
      refine congrArg some (funext fun q => ?_)
      rw [if_neg (List.not_mem_nil q)]
  | cons x xs ih =>
      intro hnd aux
      have hx : x ∉ xs := (List.nodup_cons.mp hnd).1
      have hnd' : xs.Nodup := (List.nodup_cons.mp hnd).2
      rw [genericLoop]
      have hcell : genericCell env [b] (aux x) (dotCount n matrix snap x) =
          some (if dotCount n matrix snap x ∈ env then
            (if dotCount n matrix snap x = b then true else aux x) else false) := by
        rw [genericCell]
        by_cases hc : dotCount n matrix snap x ∈ env
        · rw [if_pos hc, if_pos hc]
        · rw [if_neg hc, if_neg hc]
      rw [hcell]
      dsimp only
      rw [ih hnd']
      refine congrArg some (funext fun q => ?_)
      dsimp only
      by_cases hqx : q = x
      · subst hqx
        rw [if_neg hx, if_pos rfl, if_pos (List.mem_cons_self q xs)]
      · by_cases hqxs : q ∈ xs
        · rw [if_pos hqxs, if_neg hqx, if_pos (List.mem_cons_of_mem x hqxs)]
        · rw [if_neg hqxs, if_neg hqx, if_neg (by
            rw [List.mem_cons]
            rintro (h | h)
            · exact hqx h
            · exact hqxs h)]

theorem genericStep_flatten (R C : Nat) (hC : 0 < C) (g : BGrid) :
    genericStep (R * C) (adjMoore R C) [2, 3] [3] (flatten R C g) =
      some (flatten R C (lifeStep R C false g)) := by
  rw [genericStep, genericLoop_singleton (adjMoore R C) [2, 3] 3 (R * C)
    (flatten R C g) (List.range (R * C)) (List.nodup_range _) (flatten R C g)]
  refine congrArg some (funext fun q => ?_)
  by_cases hq : q < R * C
  · rw [if_pos (by rw [List.mem_range]; exact hq)]
    have hx : q / C < R := by
      rw [Nat.div_lt_iff_lt_mul hC]
      exact hq
    have hy : q % C < C := Nat.mod_lt _ hC
    have hqeq : q / C * C + q % C = q := Nat.div_add_mod' q C
    have hcnt : dotCount (R * C) (adjMoore R C) (flatten R C g) q =
        nbrCount R C false g (q / C) (q % C) := by
      have := dotCount_adjMoore R C hC g (q / C) (q % C) hx hy
      rw [hqeq] at this
      exact this
    have hold : flatten R C g q = g (q / C) (q % C) := by
      simp only [flatten]
      rw [if_pos hq]
    have hres : flatten R C (lifeStep R C false g) q =
        lifeStep R C false g (q / C) (q % C) := by
      simp only [flatten]
      rw [if_pos hq]
    rw [hold, hres, hcnt]
    simp only [lifeStep]
    rw [if_pos (show q / C < R ∧ q % C < C from ⟨hx, hy⟩)]
    exact rule_forms_eq (g (q / C) (q % C)) (nbrCount R C false g (q / C) (q % C))
  · rw [if_neg (by rw [List.mem_range]; exact hq)]
    simp only [flatten]
    rw [if_neg hq, if_neg hq]

theorem genericRun_flatten (R C : Nat) (hC : 0 < C) :
    ∀ (k : Nat) (g : BGrid),
      genericRun (R * C) (adjMoore R C) [2, 3] [3] k (flatten R C g) =
        some (flatten R C (lifeRun R C false k g)) := by
  intro k
  induction k with
  | zero =>
      intro g
      rfl
  | succ k ih =>
      intro g
      rw [genericRun, genericStep_flatten R C hC g]
      exact ih (lifeStep R C false g)

/-- **C7**: the generic graph engine, fed the 8-neighbour non-periodic
adjacency relation, survive set {2,3} and birth set {3}, produces exactly the
square-grid engine's result (fixed boundary) for every initial grid and every
non-negative step count. -/
theorem life_generic_refines_life (R C : Nat) (hC : 0 < C) (g : BGrid) (n : Nat) :
    life_generic (adjMoore R C) (flatten R C g) (n : Int) (R * C) [2, 3] [3] =
      some (flatten R C (life R C g (n : Int) false)) := by
  rw [life_generic, life, Int.toNat_natCast]
  exact genericRun_flatten R C hC n g

theorem life_generic_refines_life_w :
    life_generic (adjMoore 2 2) (flatten 2 2 lifeG1) (((1 : Nat) : Int)) (2 * 2)
        [2, 3] [3] =
      some (flatten 2 2 (life 2 2 lifeG1 (((1 : Nat) : Int)) false)) :=
  life_generic_refines_life 2 2 (by decide) lifeG1 1

/-! ## Game of Life on the triangular grid (`lifetri`, lines 126–192)

States are numeric (the source works in a float array holding 0/1); values
here are naturals.  The `R × C` input is embedded at offset `(1, 2)` of an
`(R+2) × (C+4)` zero array (lines 146–148).  Per step (lines 151–188): in
periodic mode the borders of `in_state` are first overwritten with the
opposite edges of `aux` (lines 155–162, `triWrap`); then every interior cell
`x ∈ [1, R+2-2]`, `y ∈ [2, C+4-3]` of `aux` is updated from the snapshot:
the neighbour count is an orientation-dependent window over rows `x-1`, `x`,
`x+1` minus the cell itself (lines 171–181); a count outside {4,5,6} kills
the cell, count 4 births it, counts 5 and 6 leave `aux` unchanged (lines
183–186).  The border of `aux` is never written.  Line 192 strips the
padding. -/

/-- Numeric grid (the 0/1 contents of the source's float array). -/
abbrev NGrid := Nat → Nat → Nat

/-- `up = (x+y+1) % 2 == 0` (line 171) as the 0/1 number the source blends
into its slice arithmetic; `x, y` are padded-array coordinates. -/
def triUp (x y : Nat) : Nat := if (x + y + 1) % 2 = 0 then 1 else 0

/-- `sum(s[r, a:b])`. -/
def rowSum (s : NGrid) (r a b : Nat) : Nat := ∑ t ∈ Finset.Ico a b, s r t

/-- Lines 177–181: the neighbour count of padded cell `(x, y)`, with the
orientation blended into the slice bounds exactly as in the source
(`down = 1 - up`). -/
def triNeighbors (s : NGrid) (x y : Nat) : Nat :=
  rowSum s (x - 1) ((y - 1) * triUp x y + (y - 2) * (1 - triUp x y))
      ((y + 2) * triUp x y + (y + 3) * (1 - triUp x y))
    + rowSum s x (y - 2) (y + 3)
    + rowSum s (x + 1) ((y - 2) * triUp x y + (y - 1) * (1 - triUp x y))
      ((y + 3) * triUp x y + (y + 2) * (1 - triUp x y))
    - s x y

/-- Lines 155–162: the periodic border overwrite of `in_state` from the
opposite edges of `aux` (later statements win, so corners are checked
first). -/
def triWrap (AR AC : Nat) (a : NGrid) : NGrid := fun x y =>
  if x = 0 ∧ y ≤ 1 then a (AR - 2) (AC - 4 + y)
  else if x = AR - 1 ∧ AC - 2 ≤ y then a 1 (y - (AC - 4))
  else if x = 0 ∧ AC - 2 ≤ y then a (AR - 2) (y - (AC - 4))
  else if x = AR - 1 ∧ y ≤ 1 then a 1 (AC - 4 + y)
  else if y ≤ 1 then a x (AC - 4 + y)
  else if AC - 2 ≤ y then a x (y - (AC - 4))
  else if x = 0 then a (AR - 2) y
  else if x = AR - 1 then a 1 y
  else a x y

/-- One step of `lifetri` on the padded `AR × AC` array. -/
def triStep (AR AC : Nat) (periodic : Bool) (s : NGrid) : NGrid :=
  let snap := if periodic then triWrap AR AC s else s
  fun x y =>
    if 1 ≤ x ∧ x ≤ AR - 2 ∧ 2 ≤ y ∧ y ≤ AC - 3 then
      let n := triNeighbors snap x y
      if ¬(n = 4 ∨ n = 5 ∨ n = 6) then 0
      else if n = 4 then 1
      else s x y
    else s x y

/-- The loop of line 151. -/
def triRun (AR AC : Nat) (periodic : Bool) : Nat → NGrid → NGrid
  | 0, s => s
  | k + 1, s => triRun AR AC periodic k (triStep AR AC periodic s)

/-- Lines 146–148: embed the input at offset `(1, 2)` of the zero array. -/
def triPad (R C : Nat) (g : NGrid) : NGrid :=
  fun x y => if 1 ≤ x ∧ x ≤ R ∧ 2 ≤ y ∧ y ≤ C + 1 then g (x - 1) (y - 2) else 0

/-- The whole `lifetri` function (line 192 strips the padding). -/
def lifetri (R C : Nat) (g : NGrid) (nsteps : Int) (periodic : Bool) : NGrid :=
  fun r c => triRun (R + 2) (C + 4) periodic nsteps.toNat (triPad R C g) (r + 1) (c + 2)

/-- The up-pointing neighbour window: narrow slice above, wide slice below
(the spec side of claim C4). -/
def upWindow (s : NGrid) (x y : Nat) : Nat :=
  rowSum s (x - 1) (y - 1) (y + 2) + rowSum s x (y - 2) (y + 3)
    + rowSum s (x + 1) (y - 2) (y + 3) - s x y

/-- The down-pointing neighbour window: wide slice above, narrow slice below
(the spec side of claim C4). -/
def downWindow (s : NGrid) (x y : Nat) : Nat :=
  rowSum s (x - 1) (y - 2) (y + 3) + rowSum s x (y - 2) (y + 3)
    + rowSum s (x + 1) (y - 1) (y + 2) - s x y

/-- **C4** (counterexample): the input-grid cell `(0, 0)` sits at padded
coordinates `(1, 2)` and the engine treats it as up-pointing
(`triUp 1 2 = 1`), but the claimed formula `(row+col+1) % 2 == 0`, read at
input coordinates, calls it down-pointing. -/
theorem lifetri_orientation_claim_false :
    ¬ (triUp (0 + 1) (0 + 2) = 1 ↔ (0 + 0 + 1) % 2 = 0) := by
  decide

/-- **C4** (amended): a cell at input position `(row, col)` — padded
coordinates `(row+1, col+2)`, the coordinates in which line 171 computes
`up = (x+y+1) % 2 == 0` — is treated as up-pointing iff
`(row + col) % 2 = 0`, and this orientation selects which of the two
asymmetric windows the neighbour sum of lines 177–181 computes. -/
theorem lifetri_orientation (s : NGrid) (row col : Nat) :
    (triUp (row + 1) (col + 2) = 1 ↔ (row + col) % 2 = 0) ∧
      triNeighbors s (row + 1) (col + 2) =
        (if triUp (row + 1) (col + 2) = 1 then upWindow s (row + 1) (col + 2)
          else downWindow s (row + 1) (col + 2)) := by
  have hpar : (row + 1 + (col + 2) + 1) % 2 = (row + col) % 2 := by omega
  constructor
  · rw [triUp, hpar]
    by_cases hp : (row + col) % 2 = 0
    · rw [if_pos hp]
      simp [hp]
    · rw [if_neg hp]
      simp [hp]
  · by_cases hp : (row + 1 + (col + 2) + 1) % 2 = 0
    · have hup : triUp (row + 1) (col + 2) = 1 := by
        rw [triUp, if_pos hp]
      rw [triNeighbors, hup, if_pos rfl, upWindow]
      simp
    · have hup : triUp (row + 1) (col + 2) = 0 := by
        rw [triUp, if_neg hp]
      rw [triNeighbors, hup, if_neg (by omega), downWindow]
      simp

theorem triStep_border_preserve (AR AC : Nat) (p : Bool) (s : NGrid) (x y : Nat)
    (hbd : ¬(1 ≤ x ∧ x ≤ AR - 2 ∧ 2 ≤ y ∧ y ≤ AC - 3)) :
    triStep AR AC p s x y = s x y := by
  simp only [triStep]
  rw [if_neg hbd]

theorem triRun_border (AR AC : Nat) (p : Bool) :
    ∀ n (s : NGrid) (x y : Nat), ¬(1 ≤ x ∧ x ≤ AR - 2 ∧ 2 ≤ y ∧ y ≤ AC - 3) →
      triRun AR AC p n s x y = s x y := by
  intro n
  induction n with
  | zero =>
      intro s x y h
      rfl
  | succ n ih =>
      intro s x y h
      calc triRun AR AC p (n + 1) s x y
          = triRun AR AC p n (triStep AR AC p s) x y := rfl
        _ = triStep AR AC p s x y := ih _ x y h
        _ = s x y := triStep_border_preserve AR AC p s x y h

/-- **C10**: in the non-periodic triangular engine every padding-border cell
(row 0, row R+1, columns 0–1 and C+2–C+3 of the padded array) is 0 before
every step's neighbour computation: it is zero-initialised and the interior
update loop never writes it, so cells outside the input grid always count as
dead — a fixed all-dead boundary for the entire run. -/
theorem lifetri_border_stays_zero (R C : Nat) (g : NGrid) (n : Nat) (x y : Nat)
    (hbd : x = 0 ∨ R + 1 ≤ x ∨ y ≤ 1 ∨ C + 2 ≤ y) :
    triRun (R + 2) (C + 4) false n (triPad R C g) x y = 0 := by
  rw [triRun_border (R + 2) (C + 4) false n (triPad R C g) x y (by omega)]
  rw [triPad, if_neg (by omega)]

/-- A concrete 1×1 triangular input (single live cell). -/
def triG1 : NGrid := fun x y => if x = 0 ∧ y = 0 then 1 else 0

theorem lifetri_border_stays_zero_w :
    triRun (1 + 2) (1 + 4) false 1 (triPad 1 1 triG1) 0 0 = 0 :=
  lifetri_border_stays_zero 1 1 triG1 1 0 0 (Or.inl rfl)

/-! ## Negative step counts (claim C9)

None of the engines checks `nsteps`: `for _ in range(nsteps)` with a negative
argument is an empty loop, so each engine returns its initial configuration
(after its copy/pad/strip plumbing) rather than failing. -/

/-- **C9** (counterexample): with step count −1 every engine returns a value —
the initial configuration — instead of failing fast with a typed error. -/
theorem negative_steps_no_error :
    life 1 1 lifeG1 (-1) false = lifeG1 ∧
      lifetri 1 1 triG1 (-1) false 0 0 = triG1 0 0 ∧
      life_generic pairMatrix pairState (-1) 2 [2] [1] = some pairState := by
  refine ⟨rfl, ?_, rfl⟩
  decide

/-- **C9** (amended): for every negative step count each engine performs zero
iterations and returns the initial configuration unchanged (on its domain);
no error is raised and no computation is performed. -/
theorem negative_steps_noop (R C n' : Nat) (g : BGrid) (tg : NGrid) (p p' : Bool)
    (matrix : Nat → Nat → Bool) (s : BVec) (env fert : List Nat) (nsteps : Int)
    (hneg : nsteps < 0) :
    life R C g nsteps p = g ∧
      (∀ r, r < R → ∀ c, c < C → lifetri R C tg nsteps p' r c = tg r c) ∧
      life_generic matrix s nsteps n' env fert = some s := by
  have h0 : nsteps.toNat = 0 := Int.toNat_of_nonpos (le_of_lt hneg)
  refine ⟨?_, ?_, ?_⟩
  · rw [life, h0]
    rfl
  · intro r hr c hc
    simp only [lifetri]
    rw [h0]
    show triPad R C tg (r + 1) (c + 2) = tg r c
    rw [triPad, if_pos ⟨by omega, by omega, by omega, by omega⟩]
    simp only [Nat.add_sub_cancel]
  · rw [life_generic, h0]
    rfl

theorem negative_steps_noop_w :
    life 1 1 lifeG1 (-1) false = lifeG1 ∧
      (∀ r, r < 1 → ∀ c, c < 1 → lifetri 1 1 triG1 (-1) false r c = triG1 r c) ∧
      life_generic pairMatrix pairState (-1) 2 [2] [1] = some pairState :=
  negative_steps_noop 1 1 2 lifeG1 triG1 false false pairMatrix pairState [2] [1]
    (-1) (by decide)

end Automata
